import Mathlib

/-!
Shallow embedding of the sway per-window keyboard-layout switcher
(src/main.rs).  The tracker state `LayoutState` mirrors the Rust struct
of the same name; the IPC world is modelled by the list of input devices
returned by `get_inputs` and by a predicate `fails` telling which
layout-switch commands the compositor would reject (their results are
discarded by the source, `let _ = run_command(..)`).  `HashMap` is
modelled by an association list with unique keys built by `alinsert`.
A call that panics in Rust (`expect` on a missing active layout index)
is modelled by returning `none`.  Side effects are recorded as an
ordered trace of `Effect`s: cache writes and attempted commands.
-/

/-- One entry of the reply to `get_inputs`, as used by the source:
`identifier`, `input_type`, `xkb_active_layout_index`, `xkb_layout_names`. -/
structure Input where
  identifier : String
  input_type : String
  xkb_active_layout_index : Option Int
  xkb_layout_names : List String
deriving DecidableEq, Repr

/-- The tracker state, mirroring the Rust `LayoutState` (minus the
connection handle, which is modelled by the parameters `inputs` and
`fails` of the operations). -/
structure LayoutState where
  default_lang : Option String
  prev_id : Option String
  state : List (String × List (String × Int))
  tabbed : List String
deriving DecidableEq, Repr

/-- Ordered observable effects of one handler call: a cache write of a
snapshot under a departed key, or an attempted layout-switch command. -/
inductive Effect where
  | save : String → List (String × Int) → Effect
  | cmd : String → Effect
deriving DecidableEq, Repr

/-- Association-list lookup (model of `HashMap::get`). -/
def alget {α : Type} (l : List (String × α)) (k : String) : Option α :=
  match l with
  | [] => none
  | (k', v') :: rest => if k' = k then some v' else alget rest k

/-- Association-list insert-or-replace (model of `HashMap::insert`). -/
def alinsert {α : Type} (l : List (String × α)) (k : String) (v : α) :
    List (String × α) :=
  match l with
  | [] => [(k, v)]
  | (k', v') :: rest => if k' = k then (k, v) :: rest else (k', v') :: alinsert rest k v

/-- Association-list removal (model of `HashMap::remove`). -/
def alremove {α : Type} (l : List (String × α)) (k : String) :
    List (String × α) :=
  match l with
  | [] => []
  | (k', v') :: rest => if k' = k then alremove rest k else (k', v') :: alremove rest k

/-- The command text `format!("input {input_id} xkb_switch_layout {lo_idx}")`. -/
def cmdText (input_id : String) (lo_idx : Int) : String :=
  s!"input {input_id} xkb_switch_layout {lo_idx}"

/-- Command text for one (device identifier, layout index) pair. -/
def cmdOfPair (p : String × Int) : String :=
  cmdText p.1 p.2

/-- `Connection::run_command`: succeeds or fails according to the world
predicate `fails`; the source always discards this result. -/
def run_command (fails : String → Bool) (c : String) : Except String Unit :=
  if fails c then Except.error "command failed" else Except.ok ()

/-- The restore loop of `_set_lang`: one attempted command per
(device, layout index) pair of the cached map, result discarded. -/
def restoreLoop (fails : String → Bool) : List (String × Int) → List Effect
  | [] => []
  | (input_id, lo_idx) :: rest =>
    let _ := run_command fails (cmdText input_id lo_idx)
    Effect.cmd (cmdText input_id lo_idx) :: restoreLoop fails rest

/-- The inner loop of the default branch of `_set_lang`:
`for (lo_idx, lo_name) in input.xkb_layout_names.iter().enumerate()`,
issuing a command for every name equal to the default language. -/
def defaultInner (fails : String → Bool) (lang ident : String) :
    List String → Nat → List Effect
  | [], _ => []
  | lo_name :: rest, lo_idx =>
    if lo_name = lang then
      let _ := run_command fails (cmdText ident (Int.ofNat lo_idx))
      Effect.cmd (cmdText ident (Int.ofNat lo_idx)) :: defaultInner fails lang ident rest (lo_idx + 1)
    else defaultInner fails lang ident rest (lo_idx + 1)

/-- The outer loop of the default branch of `_set_lang`:
`for input in self.comm_conn.get_inputs().unwrap()`. -/
def defaultLoop (fails : String → Bool) (lang : String) : List Input → List Effect
  | [] => []
  | input :: rest =>
    defaultInner fails lang input.identifier input.xkb_layout_names 0
      ++ defaultLoop fails lang rest

/-- `LayoutState::_set_lang`: restore from the cache when an entry for
`key` exists, otherwise fall back to the configured default language. -/
def _set_lang (s : LayoutState) (inputs : List Input) (fails : String → Bool)
    (key : String) : List Effect :=
  match alget s.state key with
  | some map => restoreLoop fails map
  | none =>
    match s.default_lang with
    | some lang => defaultLoop fails lang inputs
    | none => []

/-- The loop of `_get_lang`, accumulating the snapshot map; `none`
models the `expect` panic on a keyboard without an active layout index. -/
def getLangGo (acc : List (String × Int)) : List Input → Option (List (String × Int))
  | [] => some acc
  | input :: rest =>
    if input.input_type ≠ "keyboard" then getLangGo acc rest
    else
      match input.xkb_active_layout_index with
      | none => none
      | some idx => getLangGo (alinsert acc input.identifier idx) rest

/-- `LayoutState::_get_lang`: snapshot the active layout index of every
keyboard-type input device. -/
def _get_lang (inputs : List Input) : Option (List (String × Int)) :=
  getLangGo [] inputs

/-- `LayoutState::on_focus`: save the snapshot under the previous key
(when one exists), then restore-or-default for `key`, then record `key`
as focused.  Returns the new state and the ordered effect trace, or
`none` when the snapshot panics. -/
def on_focus (s : LayoutState) (inputs : List Input) (fails : String → Bool)
    (key : String) : Option (LayoutState × List Effect) :=
  match s.prev_id with
  | some prev =>
    match _get_lang inputs with
    | none => none
    | some layoutmap =>
      let s1 : LayoutState := { s with state := alinsert s.state prev layoutmap }
      some ({ s1 with prev_id := some key },
            Effect.save prev layoutmap :: _set_lang s1 inputs fails key)
  | none =>
    some ({ s with prev_id := some key }, _set_lang s inputs fails key)

/-- `LayoutState::on_close`: evict `key` from the cache and clear the
focused key when it was `key`.  No command is ever issued. -/
def on_close (s : LayoutState) (key : String) : LayoutState × List Effect :=
  let s1 : LayoutState := { s with state := alremove s.state key }
  if s1.prev_id = some key then ({ s1 with prev_id := none }, []) else (s1, [])

/-- `LayoutState::make_map_key`: the window id rendered as text, with the
window name appended when the application id is in the tabbed set. -/
def make_map_key (tabbed : List String) (id : Int) (app_id : Option String)
    (name : Option String) : String :=
  let key := toString id
  match app_id with
  | some a =>
    if tabbed.contains a then
      match name with
      | some n => key ++ n
      | none => key
    else key
  | none => key

/-- The attempted layout-switch commands of a trace, in order. -/
def commandsOf (tr : List Effect) : List String :=
  tr.filterMap fun e =>
    match e with
    | Effect.cmd c => some c
    | Effect.save _ _ => none

/-- Whether an effect is an attempted command. -/
def isCmdEffect : Effect → Bool
  | Effect.cmd _ => true
  | Effect.save _ _ => false

/-- A world in which every command succeeds. -/
def noFail : String → Bool := fun _ => false

/-- A world in which every command fails. -/
def allFail : String → Bool := fun _ => true

/-- Folding `on_focus` over a list of keys, keeping only the states. -/
def focusStep (inputs : List Input) (s : LayoutState) (k : String) :
    Option LayoutState :=
  (on_focus s inputs noFail k).map Prod.fst

/-- Run a sequence of focus events from a state (all commands succeed). -/
def runKeys (inputs : List Input) (s : LayoutState) (ks : List String) :
    Option LayoutState :=
  ks.foldlM (focusStep inputs) s

/-- The tracker state at startup. -/
def initState : LayoutState :=
  { default_lang := none, prev_id := none, state := [], tabbed := [] }

/-- Fixture: tracker focused on window A, with window B cached as device D at index 0. -/
def stAB : LayoutState :=
  { default_lang := none, prev_id := some "A", state := [("B", [("D", 0)])], tabbed := [] }

/-- Fixture: `stAB` after focus moved to B with device D active at index 2. -/
def stAB' : LayoutState :=
  { default_lang := none, prev_id := some "B",
    state := [("B", [("D", 0)]), ("A", [("D", 2)])], tabbed := [] }

/-- Fixture: trace of the focus transition from `stAB` to `stAB'`. -/
def trAB : List Effect :=
  [Effect.save "A" [("D", 2)], Effect.cmd "input D xkb_switch_layout 0"]

/-- Fixture: one keyboard D active at index 2. -/
def inputsD2 : List Input := [⟨"D", "keyboard", some 2, ["us", "de"]⟩]

/-- Fixture: default language configured, nothing cached, nothing focused. -/
def stDef : LayoutState :=
  { default_lang := some "us", prev_id := none, state := [], tabbed := [] }

/-- Fixture: `stDef` after a fresh window C gained focus. -/
def stDef' : LayoutState :=
  { default_lang := some "us", prev_id := some "C", state := [], tabbed := [] }

/-- Fixture: a keyboard whose layout-name list holds the default name twice. -/
def inputsDup : List Input := [⟨"D", "keyboard", some 0, ["us", "us"]⟩]

/-- Fixture: keyboard D, whose layout list matches the default name exactly once. -/
def kbD : Input := ⟨"D", "keyboard", some 0, ["de", "us", "fr"]⟩

/-- Fixture: keyboard E, whose layout list has no match for the default name. -/
def kbE : Input := ⟨"E", "keyboard", some 0, ["de"]⟩

/-- Fixture: keyboard D with a unique match for the default name, keyboard E without one. -/
def inputsDE : List Input := [kbD, kbE]

/-- Fixture: trace of the default pass over `inputsDE`. -/
def trDef : List Effect := [Effect.cmd "input D xkb_switch_layout 1"]

/-- Fixture: window A cached as device D at 2 and E at 1, nothing focused. -/
def stRes : LayoutState :=
  { default_lang := none, prev_id := none, state := [("A", [("D", 2), ("E", 1)])], tabbed := [] }

/-- Fixture: `stRes` after focus arrived at A. -/
def stRes' : LayoutState := { stRes with prev_id := some "A" }

/-- Fixture: trace of restoring the cached map of A in `stRes`. -/
def trRes : List Effect :=
  [Effect.cmd "input D xkb_switch_layout 2", Effect.cmd "input E xkb_switch_layout 1"]

/-- Fixture: focused on A, B cached, before focus moves to a fresh window C. -/
def stPrev : LayoutState :=
  { default_lang := none, prev_id := some "A", state := [("B", [("D", 5)])], tabbed := [] }

/-- Fixture: `stPrev` after focus moved to C with no keyboard present. -/
def stPrev' : LayoutState :=
  { default_lang := none, prev_id := some "C",
    state := [("B", [("D", 5)]), ("A", [])], tabbed := [] }

/-- Fixture: trace of the focus transition from `stPrev` to `stPrev'`. -/
def trPrev : List Effect := [Effect.save "A" []]

/-- Fixture: window A cached with an empty device map, default language configured. -/
def stEmp : LayoutState :=
  { default_lang := some "us", prev_id := none, state := [("A", [])], tabbed := [] }

/-- Fixture: `stEmp` after focus arrived at A. -/
def stEmp' : LayoutState := { stEmp with prev_id := some "A" }

/-- Fixture: one keyboard whose layout list matches the default name. -/
def inputsUS : List Input := [⟨"D", "keyboard", some 0, ["us"]⟩]

/-- Fixture: a keyboard-type device without an active layout index. -/
def inputsBad : List Input := [⟨"D", "keyboard", none, ["us"]⟩]

/-- Fixture: a keyboard at index 3 next to a pointer device without an index. -/
def inputsGood : List Input := [⟨"D", "keyboard", some 3, ["us"]⟩, ⟨"M", "pointer", none, []⟩]

@[simp]
theorem alget_nil {α : Type} (k : String) : alget ([] : List (String × α)) k = none := rfl

@[simp]
theorem alget_cons {α : Type} (k' : String) (v' : α) (rest : List (String × α)) (k : String) :
    alget ((k', v') :: rest) k = if k' = k then some v' else alget rest k := rfl

theorem alget_alinsert_self {α : Type} (l : List (String × α)) (k : String) (v : α) :
    alget (alinsert l k v) k = some v := by
  induction l with
  | nil => simp [alget, alinsert]
  | cons p rest ih =>
    obtain ⟨k', v'⟩ := p
    by_cases h : k' = k
    · simp [alinsert, h]
    · simp [alinsert, h, ih]

theorem alget_alinsert_ne {α : Type} (l : List (String × α)) (k d : String) (v : α)
    (h : k ≠ d) : alget (alinsert l k v) d = alget l d := by
  induction l with
  | nil => simp [alget, alinsert, h]
  | cons p rest ih =>
    obtain ⟨k', v'⟩ := p
    by_cases h2 : k' = k
    · subst h2
      simp [alinsert, h]
    · simp [alinsert, h2, ih]

theorem alget_alremove_self {α : Type} (l : List (String × α)) (k : String) :
    alget (alremove l k) k = none := by
  induction l with
  | nil => simp [alremove]
  | cons p rest ih =>
    obtain ⟨k', v'⟩ := p
    by_cases h : k' = k
    · simp [alremove, h, ih]
    · simp [alremove, h, ih]

theorem alremove_alremove {α : Type} (l : List (String × α)) (k : String) :
    alremove (alremove l k) k = alremove l k := by
  induction l with
  | nil => simp [alremove]
  | cons p rest ih =>
    obtain ⟨k', v'⟩ := p
    by_cases h : k' = k
    · simp [alremove, h, ih]
    · simp [alremove, h, ih]

@[simp]
theorem commandsOf_nil : commandsOf [] = [] := rfl

@[simp]
theorem commandsOf_cons_cmd (c : String) (tr : List Effect) :
    commandsOf (Effect.cmd c :: tr) = c :: commandsOf tr := rfl

@[simp]
theorem commandsOf_cons_save (k : String) (m : List (String × Int)) (tr : List Effect) :
    commandsOf (Effect.save k m :: tr) = commandsOf tr := rfl

theorem commandsOf_append (tr tr' : List Effect) :
    commandsOf (tr ++ tr') = commandsOf tr ++ commandsOf tr' := by
  simp [commandsOf, List.filterMap_append]

theorem commandsOf_restoreLoop (fails : String → Bool) (m : List (String × Int)) :
    commandsOf (restoreLoop fails m) = m.map cmdOfPair := by
  induction m with
  | nil => rfl
  | cons p rest ih =>
    obtain ⟨a, b⟩ := p
    simp [restoreLoop, ih, cmdOfPair]

theorem restoreLoop_fails_eq (m : List (String × Int)) (f f' : String → Bool) :
    restoreLoop f m = restoreLoop f' m := by
  induction m with
  | nil => rfl
  | cons p rest ih =>
    obtain ⟨a, b⟩ := p
    simp [restoreLoop, ih]

theorem restoreLoop_all_cmds (fails : String → Bool) (m : List (String × Int)) :
    ∀ e ∈ restoreLoop fails m, isCmdEffect e = true := by
  induction m with
  | nil => intro e he; simp [restoreLoop] at he
  | cons p rest ih =>
    obtain ⟨a, b⟩ := p
    intro e he
    simp only [restoreLoop, List.mem_cons] at he
    rcases he with rfl | he
    · rfl
    · exact ih e he

theorem mem_restoreLoop (fails : String → Bool) (m : List (String × Int))
    (p : String × Int) (h : p ∈ m) : Effect.cmd (cmdOfPair p) ∈ restoreLoop fails m := by
  induction m with
  | nil => simp at h
  | cons q rest ih =>
    obtain ⟨a, b⟩ := q
    rcases List.mem_cons.mp h with rfl | h
    · simp [restoreLoop, cmdOfPair]
    · simp only [restoreLoop, List.mem_cons]
      exact Or.inr (ih h)

theorem defaultInner_fails_eq (lang ident : String) (names : List String)
    (f f' : String → Bool) : ∀ i, defaultInner f lang ident names i = defaultInner f' lang ident names i := by
  induction names with
  | nil => intro i; rfl
  | cons n rest ih =>
    intro i
    by_cases h : n = lang
    · simp [defaultInner, h, ih]
    · simp [defaultInner, h, ih]

theorem defaultLoop_fails_eq (lang : String) (inputs : List Input)
    (f f' : String → Bool) : defaultLoop f lang inputs = defaultLoop f' lang inputs := by
  induction inputs with
  | nil => rfl
  | cons inp rest ih =>
    simp [defaultLoop, ih, defaultInner_fails_eq lang inp.identifier inp.xkb_layout_names f f']

theorem commandsOf_defaultInner (fails : String → Bool) (lang ident : String)
    (names : List String) : ∀ i, commandsOf (defaultInner fails lang ident names i)
      = (List.enumFrom i names).filterMap
          (fun q => if q.2 = lang then some (cmdText ident (Int.ofNat q.1)) else none) := by
  induction names with
  | nil => intro i; rfl
  | cons n rest ih =>
    intro i
    by_cases h : n = lang
    · simp [defaultInner, h, ih, List.enumFrom, List.filterMap_cons]
    · simp [defaultInner, h, ih, List.enumFrom, List.filterMap_cons]

theorem commandsOf_defaultLoop (fails : String → Bool) (lang : String)
    (inputs : List Input) : commandsOf (defaultLoop fails lang inputs)
      = inputs.flatMap (fun inp => inp.xkb_layout_names.enum.filterMap
          (fun q => if q.2 = lang then some (cmdText inp.identifier (Int.ofNat q.1)) else none)) := by
  induction inputs with
  | nil => rfl
  | cons inp rest ih =>
    simp [defaultLoop, commandsOf_append, ih, commandsOf_defaultInner, List.enum]

theorem defaultInner_all_cmds (fails : String → Bool) (lang ident : String)
    (names : List String) : ∀ i, ∀ e ∈ defaultInner fails lang ident names i, isCmdEffect e = true := by
  induction names with
  | nil => intro i e he; simp [defaultInner] at he
  | cons n rest ih =>
    intro i e he
    by_cases h : n = lang
    · simp only [defaultInner, h, if_pos, List.mem_cons] at he
      rcases he with rfl | he
      · rfl
      · exact ih (i + 1) e he
    · simp only [defaultInner, h, if_neg, ite_false] at he
      exact ih (i + 1) e he

theorem defaultLoop_all_cmds (fails : String → Bool) (lang : String)
    (inputs : List Input) : ∀ e ∈ defaultLoop fails lang inputs, isCmdEffect e = true := by
  induction inputs with
  | nil => intro e he; simp [defaultLoop] at he
  | cons inp rest ih =>
    intro e he
    simp only [defaultLoop, List.mem_append] at he
    rcases he with he | he
    · exact defaultInner_all_cmds fails lang inp.identifier inp.xkb_layout_names 0 e he
    · exact ih e he

theorem set_lang_restore_eq (s : LayoutState) (inputs : List Input)
    (fails : String → Bool) (key : String) (m : List (String × Int))
    (h : alget s.state key = some m) : _set_lang s inputs fails key = restoreLoop fails m := by
  simp [_set_lang, h]

theorem set_lang_default_eq (s : LayoutState) (inputs : List Input)
    (fails : String → Bool) (key lang : String)
    (h : alget s.state key = none) (hd : s.default_lang = some lang) :
    _set_lang s inputs fails key = defaultLoop fails lang inputs := by
  simp [_set_lang, h, hd]

theorem set_lang_fails_eq (s : LayoutState) (inputs : List Input) (key : String)
    (f f' : String → Bool) : _set_lang s inputs f key = _set_lang s inputs f' key := by
  cases h : alget s.state key with
  | some m =>
    simp only [_set_lang, h]
    exact restoreLoop_fails_eq m f f'
  | none =>
    cases hd : s.default_lang with
    | some lang =>
      simp only [_set_lang, h, hd]
      exact defaultLoop_fails_eq lang inputs f f'
    | none => simp [_set_lang, h, hd]

theorem set_lang_all_cmds (s : LayoutState) (inputs : List Input)
    (fails : String → Bool) (key : String) :
    ∀ e ∈ _set_lang s inputs fails key, isCmdEffect e = true := by
  cases h : alget s.state key with
  | some m =>
    rw [set_lang_restore_eq s inputs fails key m h]
    exact restoreLoop_all_cmds fails m
  | none =>
    cases hd : s.default_lang with
    | some lang =>
      rw [set_lang_default_eq s inputs fails key lang h hd]
      exact defaultLoop_all_cmds fails lang inputs
    | none => intro e he; simp [_set_lang, h, hd] at he

theorem all_cmds_eq_map (tr : List Effect) (h : ∀ e ∈ tr, isCmdEffect e = true) :
    (commandsOf tr).map Effect.cmd = tr := by
  induction tr with
  | nil => rfl
  | cons e rest ih =>
    cases e with
    | save k m => exact absurd (h _ (List.mem_cons_self _ _)) (by simp [isCmdEffect])
    | cmd c =>
      simp only [commandsOf_cons_cmd, List.map_cons]
      rw [ih fun e he => h e (List.mem_cons_of_mem _ he)]

theorem on_focus_fails_eq (s : LayoutState) (inputs : List Input) (key : String)
    (f f' : String → Bool) : on_focus s inputs f key = on_focus s inputs f' key := by
  cases hp : s.prev_id with
  | none => simp [on_focus, hp, set_lang_fails_eq s inputs key f f']
  | some prev =>
    cases hg : _get_lang inputs with
    | none => simp [on_focus, hp, hg]
    | some lm =>
      simp only [on_focus, hp, hg, Option.some.injEq, Prod.mk.injEq, true_and]
      rw [set_lang_fails_eq _ inputs key f f']

theorem getLangGo_none_iff (inputs : List Input) : ∀ acc : List (String × Int),
    getLangGo acc inputs = none
      ↔ ∃ i ∈ inputs, i.input_type = "keyboard" ∧ i.xkb_active_layout_index = none := by
  induction inputs with
  | nil => intro acc; simp [getLangGo]
  | cons inp rest ih =>
    intro acc
    by_cases hk : inp.input_type = "keyboard"
    · cases hidx : inp.xkb_active_layout_index with
      | none => simp [getLangGo, hk, hidx, List.exists_mem_cons_iff]
      | some idx => simp [getLangGo, hk, hidx, ih, List.exists_mem_cons_iff]
    · simp [getLangGo, hk, ih, List.exists_mem_cons_iff]

theorem getLangGo_isSome (inputs : List Input) : ∀ (acc m : List (String × Int)) (d : String),
    getLangGo acc inputs = some m →
      ((alget m d).isSome = true
        ↔ (alget acc d).isSome = true ∨ ∃ i ∈ inputs, i.input_type = "keyboard" ∧ i.identifier = d) := by
  induction inputs with
  | nil =>
    intro acc m d h
    simp only [getLangGo, Option.some.injEq] at h
    subst h
    simp
  | cons inp rest ih =>
    intro acc m d h
    by_cases hk : inp.input_type = "keyboard"
    · cases hidx : inp.xkb_active_layout_index with
      | none => simp [getLangGo, hk, hidx] at h
      | some idx =>
        simp only [getLangGo, hk, hidx, ne_eq, not_true_eq_false, if_false, ite_false] at h
        have hm := ih (alinsert acc inp.identifier idx) m d h
        by_cases hd : inp.identifier = d
        · subst hd
          rw [hm]
          simp [alget_alinsert_self, List.exists_mem_cons_iff, hk]
        · rw [hm, alget_alinsert_ne acc inp.identifier d idx hd]
          simp [List.exists_mem_cons_iff, hd]
    · simp only [getLangGo, hk, ne_eq, not_false_eq_true, if_true, ite_true] at h
      rw [ih acc m d h]
      simp [List.exists_mem_cons_iff, hk]

theorem getLangGo_sound (inputs : List Input) :
    ∀ (acc m : List (String × Int)) (d : String) (v : Int),
    getLangGo acc inputs = some m → alget m d = some v →
      alget acc d = some v
        ∨ ∃ i ∈ inputs, i.input_type = "keyboard" ∧ i.identifier = d
            ∧ i.xkb_active_layout_index = some v := by
  induction inputs with
  | nil =>
    intro acc m d v h hv
    simp only [getLangGo, Option.some.injEq] at h
    subst h
    exact Or.inl hv
  | cons inp rest ih =>
    intro acc m d v h hv
    by_cases hk : inp.input_type = "keyboard"
    · cases hidx : inp.xkb_active_layout_index with
      | none => simp [getLangGo, hk, hidx] at h
      | some idx =>
        simp only [getLangGo, hk, hidx, ne_eq, not_true_eq_false, if_false, ite_false] at h
        rcases ih (alinsert acc inp.identifier idx) m d v h hv with hacc | ⟨i, hi, hki, hdi, hvi⟩
        · by_cases hd : inp.identifier = d
          · subst hd
            rw [alget_alinsert_self] at hacc
            refine Or.inr ⟨inp, List.mem_cons_self _ _, hk, rfl, ?_⟩
            rw [hidx]
            exact congrArg some (Option.some.inj hacc)
          · rw [alget_alinsert_ne acc inp.identifier d idx hd] at hacc
            exact Or.inl hacc
        · exact Or.inr ⟨i, List.mem_cons_of_mem _ hi, hki, hdi, hvi⟩
    · simp only [getLangGo, hk, ne_eq, not_false_eq_true, if_true, ite_true] at h
      rcases ih acc m d v h hv with hacc | ⟨i, hi, hki, hdi, hvi⟩
      · exact Or.inl hacc
      · exact Or.inr ⟨i, List.mem_cons_of_mem _ hi, hki, hdi, hvi⟩

theorem string_append_cancel_iff (s t t' : String) : s ++ t = s ++ t' ↔ t = t' := by
  constructor
  · intro h
    have hd := congrArg String.data h
    rw [String.data_append, String.data_append] at hd
    exact String.ext (List.append_cancel_left hd)
  · intro h
    rw [h]

theorem enumFrom_filterMap_length {α : Type} (lang : String) (f : Nat → α)
    (names : List String) : ∀ i,
    ((List.enumFrom i names).filterMap
        (fun q => if q.2 = lang then some (f q.1) else none)).length
      = names.count lang := by
  induction names with
  | nil => intro i; simp
  | cons n rest ih =>
    intro i
    by_cases hn : n = lang
    · simp [List.enumFrom, List.filterMap_cons, hn, ih, List.count_cons]
    · simp [List.enumFrom, List.filterMap_cons, hn, ih, List.count_cons]

theorem cmd_mem_of_mem_commandsOf (tr : List Effect) (c : String)
    (h : c ∈ commandsOf tr) : Effect.cmd c ∈ tr := by
  simp only [commandsOf, List.mem_filterMap] at h
  obtain ⟨e, he, hc⟩ := h
  cases e with
  | save k m => simp at hc
  | cmd c' =>
    simp only [Option.some.injEq] at hc
    subst hc
    exact he

theorem on_focus_restore_commands (st : LayoutState) (inputs : List Input)
    (fails : String → Bool) (k : String) (st' : LayoutState) (tr : List Effect)
    (m : List (String × Int))
    (h : on_focus st inputs fails k = some (st', tr))
    (hm : alget st'.state k = some m) :
    commandsOf tr = m.map cmdOfPair := by
  cases hp : st.prev_id with
  | none =>
    simp only [on_focus, hp, Option.some.injEq, Prod.mk.injEq] at h
    obtain ⟨rfl, rfl⟩ := h
    rw [set_lang_restore_eq st inputs fails k m (by exact hm)]
    exact commandsOf_restoreLoop fails m
  | some p =>
    cases hg : _get_lang inputs with
    | none => simp [on_focus, hp, hg] at h
    | some lm =>
      simp only [on_focus, hp, hg, Option.some.injEq, Prod.mk.injEq] at h
      obtain ⟨rfl, rfl⟩ := h
      rw [commandsOf_cons_save]
      rw [set_lang_restore_eq _ inputs fails k m (by exact hm)]
      exact commandsOf_restoreLoop fails m

theorem on_focus_default_commands (st : LayoutState) (inputs : List Input)
    (fails : String → Bool) (k : String) (st' : LayoutState) (tr : List Effect)
    (lang : String)
    (h : on_focus st inputs fails k = some (st', tr))
    (hk : alget st'.state k = none)
    (hl : st.default_lang = some lang) :
    commandsOf tr = inputs.flatMap (fun inp => inp.xkb_layout_names.enum.filterMap
        (fun q => if q.2 = lang then some (cmdText inp.identifier (Int.ofNat q.1)) else none)) := by
  cases hp : st.prev_id with
  | none =>
    simp only [on_focus, hp, Option.some.injEq, Prod.mk.injEq] at h
    obtain ⟨rfl, rfl⟩ := h
    rw [set_lang_default_eq st inputs fails k lang (by exact hk) hl]
    exact commandsOf_defaultLoop fails lang inputs
  | some p =>
    cases hg : _get_lang inputs with
    | none => simp [on_focus, hp, hg] at h
    | some lm =>
      simp only [on_focus, hp, hg, Option.some.injEq, Prod.mk.injEq] at h
      obtain ⟨rfl, rfl⟩ := h
      rw [commandsOf_cons_save]
      rw [set_lang_default_eq _ inputs fails k lang (by exact hk) (by exact hl)]
      exact commandsOf_defaultLoop fails lang inputs

/-- Claim C8: calling on_close twice in succession has the same observable
effect as calling it once: afterwards the cache has no entry for the key,
the focused key is none when it was the key (unchanged otherwise), and
neither call issues any command. -/
theorem on_close_idempotent (s : LayoutState) (k : String) :
    on_close (on_close s k).1 k = on_close s k
    ∧ alget (on_close s k).1.state k = none
    ∧ (on_close s k).1.prev_id = (if s.prev_id = some k then none else s.prev_id)
    ∧ (on_close s k).2 = [] := by
  by_cases hp : s.prev_id = some k
  · simp [on_close, hp, alremove_alremove, alget_alremove_self]
  · simp [on_close, hp, alremove_alremove, alget_alremove_self]

/-- Claim C4 (counterexample): two distinct tabbed windows, with different
window ids and different titles, derive the same key, because the id text
and the title are concatenated without a separator.  So equal keys do not
imply the same tracked context, and the key can stay unchanged when both
the id and the title change. -/
theorem make_map_key_collision :
    make_map_key ["term"] 1 (some "term") (some "23")
        = make_map_key ["term"] 12 (some "term") (some "3")
    ∧ (1 : Int) ≠ 12 ∧ ("23" : String) ≠ "3" := by
  decide

/-- Claim C4 (amended): for tabbed windows sharing the same window id, the
derived key changes exactly when the title changes; distinct id and title
combinations may still collide, as the counterexample shows. -/
theorem make_map_key_tabbed_title_inj (tabbed : List String) (id : Int)
    (a n n' : String) (h : a ∈ tabbed) :
    (make_map_key tabbed id (some a) (some n) = make_map_key tabbed id (some a) (some n')
      ↔ n = n') := by
  have hc : tabbed.contains a = true := List.elem_eq_true_of_mem h
  simp only [make_map_key, hc, if_true, ite_true]
  exact string_append_cancel_iff (toString id) n n'

/-- Claim C4 (witness): the amended theorem at a concrete tabbed window. -/
theorem make_map_key_tabbed_title_inj_inst :
    (make_map_key ["term"] 7 (some "term") (some "x")
        = make_map_key ["term"] 7 (some "term") (some "y") ↔ "x" = "y") :=
  make_map_key_tabbed_title_inj ["term"] 7 "term" "x" "y" (by decide)

/-- Claim C1 (counterexample): from the initial state, focusing A, then B,
then A again reaches a state whose focused key is A while the cache still
holds an entry for A: restoring from the cache does not evict the entry of
the newly focused key, so an entry can exist for the currently focused key
while it remains focused. -/
theorem focused_key_entry_persists :
    runKeys [] initState ["A", "B", "A"]
        = some { default_lang := none, prev_id := some "A",
                 state := [("A", []), ("B", [])], tabbed := [] }
    ∧ alget [("A", ([] : List (String × Int))), ("B", [])] "A" = some [] := by
  decide

/-- Claim C1 (amended): a cache entry is written only at the moment focus
departs from its key: an on_focus call changes the stored entry of a key
only when that key was the previously focused one.  (The unamended claim
fails: an entry for the currently focused key can persist, since restoring
from the cache does not evict it.) -/
theorem cache_write_only_under_prev_key (st : LayoutState) (inputs : List Input)
    (fails : String → Bool) (k : String) (st' : LayoutState) (tr : List Effect)
    (k' : String)
    (h : on_focus st inputs fails k = some (st', tr))
    (hk : alget st'.state k' ≠ alget st.state k') :
    st.prev_id = some k' := by
  cases hp : st.prev_id with
  | none =>
    simp only [on_focus, hp, Option.some.injEq, Prod.mk.injEq] at h
    obtain ⟨rfl, rfl⟩ := h
    exact absurd rfl hk
  | some p =>
    cases hg : _get_lang inputs with
    | none => simp [on_focus, hp, hg] at h
    | some lm =>
      simp only [on_focus, hp, hg, Option.some.injEq, Prod.mk.injEq] at h
      obtain ⟨rfl, rfl⟩ := h
      by_cases hpk : p = k'
      · exact congrArg some hpk
      · exact absurd (alget_alinsert_ne st.state p k' lm hpk) hk

/-- Claim C1 (witness): the amended theorem at a concrete transition where
the entry of the departed key A changes. -/
theorem cache_write_only_under_prev_key_inst : stPrev.prev_id = some "A" :=
  cache_write_only_under_prev_key stPrev [] noFail "C" stPrev' trPrev "A"
    (by decide) (by decide)

/-- Claim C2: when a previously focused key exists, on_focus stores the
snapshot of the current keyboard layouts in the cache under that key, and
that cache write is the first effect of the call; every remaining effect
is an attempted switch command, so the save happens strictly before any
switch command for the new key. -/
theorem save_before_restore (st : LayoutState) (inputs : List Input)
    (fails : String → Bool) (k : String) (st' : LayoutState) (tr : List Effect)
    (p : String) (lm : List (String × Int))
    (h : on_focus st inputs fails k = some (st', tr))
    (hp : st.prev_id = some p)
    (hl : _get_lang inputs = some lm) :
    alget st'.state p = some lm
    ∧ tr = Effect.save p lm :: (commandsOf tr).map Effect.cmd := by
  simp only [on_focus, hp, hl, Option.some.injEq, Prod.mk.injEq] at h
  obtain ⟨rfl, rfl⟩ := h
  constructor
  · exact alget_alinsert_self st.state p lm
  · rw [commandsOf_cons_save]
    rw [all_cmds_eq_map _ (set_lang_all_cmds _ inputs fails k)]

/-- Claim C2 (witness): the save-before-restore theorem at a concrete
transition from window A to cached window B. -/
theorem save_before_restore_inst :
    alget stAB'.state "A" = some [("D", 2)]
    ∧ trAB = Effect.save "A" [("D", 2)] :: (commandsOf trAB).map Effect.cmd :=
  save_before_restore stAB inputsD2 noFail "B" stAB' trAB "A" [("D", 2)]
    (by decide) (by decide) (by decide)

/-- Claim C5: when the cache entry consulted for the newly focused key (the
entry stored under it once the save step has run, which is what the call
looks up and what remains stored afterwards) is the map m, the attempted
commands of the call are exactly one per (device, layout index) pair of m,
and nothing else. -/
theorem restore_commands_exact (st : LayoutState) (inputs : List Input)
    (fails : String → Bool) (k : String) (st' : LayoutState) (tr : List Effect)
    (m : List (String × Int))
    (h : on_focus st inputs fails k = some (st', tr))
    (hm : alget st'.state k = some m) :
    commandsOf tr = m.map cmdOfPair :=
  on_focus_restore_commands st inputs fails k st' tr m h hm

/-- Claim C5 (witness): focus returning to window A cached as D at 2 and
E at 1 attempts exactly those two commands. -/
theorem restore_commands_exact_inst :
    commandsOf trRes = [("D", (2 : Int)), ("E", 1)].map cmdOfPair :=
  restore_commands_exact stRes [] noFail "A" stRes' trRes [("D", 2), ("E", 1)]
    (by decide) (by decide)

/-- Claim C6: failures of individual switch commands are ignored in every
pass: the new state and the full attempted-command trace of on_focus are
identical whatever set of commands fails (so a failure changes neither the
cache nor the focused key), in a restore pass the command of every pair of
the stored map is attempted, and in a default pass the command of every
matching (device, entry) occurrence of every enumerated device is
attempted. -/
theorem command_failures_ignored (st : LayoutState) (inputs : List Input)
    (k : String) (fails fails' : String → Bool) (st' : LayoutState)
    (tr : List Effect)
    (h : on_focus st inputs fails k = some (st', tr)) :
    on_focus st inputs fails' k = some (st', tr)
    ∧ (∀ m, alget st'.state k = some m → ∀ q ∈ m, Effect.cmd (cmdOfPair q) ∈ tr)
    ∧ (∀ lang, alget st'.state k = none → st.default_lang = some lang →
        ∀ inp ∈ inputs, ∀ q ∈ inp.xkb_layout_names.enum, q.2 = lang →
          Effect.cmd (cmdText inp.identifier (Int.ofNat q.1)) ∈ tr) := by
  refine ⟨by rw [on_focus_fails_eq st inputs k fails' fails]; exact h, ?_, ?_⟩
  · intro m hm q hq
    have hcm := on_focus_restore_commands st inputs fails k st' tr m h hm
    have hmem : cmdOfPair q ∈ commandsOf tr := by
      rw [hcm]
      exact List.mem_map_of_mem cmdOfPair hq
    exact cmd_mem_of_mem_commandsOf tr (cmdOfPair q) hmem
  · intro lang hk hl inp hinp q hq hlang
    have hcm := on_focus_default_commands st inputs fails k st' tr lang h hk hl
    have hmem : cmdText inp.identifier (Int.ofNat q.1) ∈ commandsOf tr := by
      rw [hcm, List.mem_flatMap]
      refine ⟨inp, hinp, ?_⟩
      rw [List.mem_filterMap]
      exact ⟨q, hq, by rw [if_pos hlang]⟩
    exact cmd_mem_of_mem_commandsOf tr (cmdText inp.identifier (Int.ofNat q.1)) hmem

/-- Claim C6 (witness): with every command failing, a restore pass and a
default pass each give the same outcome as with no failures; the command
of the later cached device E is still attempted in the restore pass, and
the command of the matching entry of device D is still attempted in the
default pass. -/
theorem command_failures_ignored_inst :
    (on_focus stRes [] noFail "A" = some (stRes', trRes)
      ∧ Effect.cmd (cmdOfPair ("E", 1)) ∈ trRes)
    ∧ (on_focus stDef inputsDE noFail "C" = some (stDef', trDef)
      ∧ Effect.cmd (cmdText kbD.identifier (Int.ofNat 1)) ∈ trDef) :=
  have h1 := command_failures_ignored stRes [] "A" allFail noFail stRes' trRes (by decide)
  have h2 := command_failures_ignored stDef inputsDE "C" allFail noFail stDef' trDef (by decide)
  ⟨⟨h1.1, h1.2.1 [("D", 2), ("E", 1)] (by decide) ("E", 1) (by decide)⟩,
   ⟨h2.1, h2.2.2 "us" (by decide) (by decide) kbD (by decide) (1, "us") (by decide) (by decide)⟩⟩

theorem on_focus_default_irrel (st : LayoutState) (inputs : List Input)
    (fails : String → Bool) (k : String) (st' : LayoutState) (tr : List Effect)
    (h : on_focus st inputs fails k = some (st', tr))
    (he : (alget st'.state k).isSome = true) (d : Option String) :
    on_focus { st with default_lang := d } inputs fails k
      = some ({ st' with default_lang := d }, tr) := by
  obtain ⟨dl, pv, sst, tb⟩ := st
  cases pv with
  | none =>
    simp only [on_focus, Option.some.injEq, Prod.mk.injEq] at h
    obtain ⟨rfl, rfl⟩ := h
    obtain ⟨m, hm⟩ := Option.isSome_iff_exists.mp he
    simp only [on_focus, Option.some.injEq, Prod.mk.injEq]
    refine ⟨trivial, ?_⟩
    rw [set_lang_restore_eq _ inputs fails k m (by exact hm),
      set_lang_restore_eq _ inputs fails k m (by exact hm)]
  | some p =>
    cases hg : _get_lang inputs with
    | none => simp [on_focus, hg] at h
    | some lm =>
      simp only [on_focus, hg, Option.some.injEq, Prod.mk.injEq] at h
      obtain ⟨rfl, rfl⟩ := h
      obtain ⟨m, hm⟩ := Option.isSome_iff_exists.mp he
      simp only [on_focus, hg, Option.some.injEq, Prod.mk.injEq]
      refine ⟨trivial, ?_⟩
      rw [set_lang_restore_eq _ inputs fails k m (by exact hm),
        set_lang_restore_eq _ inputs fails k m (by exact hm)]

/-- Claim C9: on_focus never removes a cache entry: the entry of every key
other than the previously focused one is unchanged by the call, and every
key present in the cache before the call is still present afterwards (only
on_close removes entries). -/
theorem on_focus_preserves_entries (st : LayoutState) (inputs : List Input)
    (fails : String → Bool) (k0 : String) (st' : LayoutState) (tr : List Effect)
    (k : String)
    (h : on_focus st inputs fails k0 = some (st', tr))
    (hk : st.prev_id ≠ some k) :
    alget st'.state k = alget st.state k
    ∧ ∀ k', (alget st.state k').isSome = true → (alget st'.state k').isSome = true := by
  cases hp : st.prev_id with
  | none =>
    simp only [on_focus, hp, Option.some.injEq, Prod.mk.injEq] at h
    obtain ⟨rfl, rfl⟩ := h
    exact ⟨rfl, fun k' hh => hh⟩
  | some p =>
    cases hg : _get_lang inputs with
    | none => simp [on_focus, hp, hg] at h
    | some lm =>
      simp only [on_focus, hp, hg, Option.some.injEq, Prod.mk.injEq] at h
      obtain ⟨rfl, rfl⟩ := h
      have hpk : p ≠ k := by
        intro e
        exact hk (hp.trans (congrArg some e))
      constructor
      · show alget (alinsert st.state p lm) k = alget st.state k
        exact alget_alinsert_ne st.state p k lm hpk
      · intro k' hh
        by_cases hpk' : p = k'
        · rw [← hpk']
          show (alget (alinsert st.state p lm) p).isSome = true
          rw [alget_alinsert_self]
          rfl
        · show (alget (alinsert st.state p lm) k').isSome = true
          rw [alget_alinsert_ne st.state p k' lm hpk']
          exact hh

/-- Claim C9 (witness): focusing fresh window C from A leaves the cached
entry of B untouched and present. -/
theorem on_focus_preserves_entries_inst :
    alget stPrev'.state "B" = alget stPrev.state "B"
    ∧ (alget stPrev'.state "B").isSome = true :=
  have h := on_focus_preserves_entries stPrev [] noFail "C" stPrev' trPrev "B"
      (by decide) (by decide)
  ⟨h.1, h.2 "B" (by decide)⟩

/-- Claim C10: when the entry stored for the newly focused key holds an
empty device map (as a snapshot taken with zero keyboards produces), the
call attempts no command at all, and the configured default language is
not consulted: replacing it by any other value changes nothing else in the
outcome. -/
theorem empty_cached_map_no_commands (st : LayoutState) (inputs : List Input)
    (fails : String → Bool) (k : String) (st' : LayoutState) (tr : List Effect)
    (h : on_focus st inputs fails k = some (st', tr))
    (he : alget st'.state k = some []) :
    commandsOf tr = []
    ∧ ∀ d, on_focus { st with default_lang := d } inputs fails k
        = some ({ st' with default_lang := d }, tr) := by
  refine ⟨?_, fun d => on_focus_default_irrel st inputs fails k st' tr h (by rw [he]; rfl) d⟩
  have hc := on_focus_restore_commands st inputs fails k st' tr [] h he
  simpa using hc

/-- Claim C10 (witness): window A cached with an empty map; focusing A with
a matching keyboard present attempts nothing, also under a different
configured default. -/
theorem empty_cached_map_no_commands_inst :
    commandsOf ([] : List Effect) = []
    ∧ on_focus { stEmp with default_lang := some "de" } inputsUS noFail "A"
        = some ({ stEmp' with default_lang := some "de" }, []) :=
  have h := empty_cached_map_no_commands stEmp inputsUS noFail "A" stEmp' []
      (by decide) (by decide)
  ⟨h.1, h.2 (some "de")⟩

/-- Claim C3 (counterexample): with default name "us" and a keyboard whose
layout-name list holds "us" at indices 0 and 1, the default pass issues two
commands for that device, refuting "exactly one switch command targeting
that device": the code issues one command per matching entry, not per
device. -/
theorem default_duplicate_names_two_commands :
    on_focus stDef inputsDup noFail "C"
        = some (stDef', [Effect.cmd "input D xkb_switch_layout 0",
                         Effect.cmd "input D xkb_switch_layout 1"])
    ∧ (commandsOf [Effect.cmd "input D xkb_switch_layout 0",
                   Effect.cmd "input D xkb_switch_layout 1"]).length ≠ 1 := by
  decide

/-- Claim C3 (amended): in a default pass (no entry for the new key once the
save step has run, default language configured), the attempted commands are
exactly one per matching (device, entry) occurrence over the enumerated
input list, at the index of that occurrence; since the number of matches of
a device equals the number of occurrences of the default name in its
layout-name list, a device listing the name exactly once receives exactly
one command and a device with no occurrence receives none. -/
theorem default_pass_commands (st : LayoutState) (inputs : List Input)
    (fails : String → Bool) (k : String) (st' : LayoutState) (tr : List Effect)
    (lang : String)
    (h : on_focus st inputs fails k = some (st', tr))
    (hk : alget st'.state k = none)
    (hl : st.default_lang = some lang) :
    commandsOf tr = inputs.flatMap (fun inp => inp.xkb_layout_names.enum.filterMap
        (fun q => if q.2 = lang then some (cmdText inp.identifier (Int.ofNat q.1)) else none))
    ∧ ∀ inp ∈ inputs,
        (inp.xkb_layout_names.enum.filterMap
            (fun q => if q.2 = lang then some (cmdText inp.identifier (Int.ofNat q.1)) else none)).length
          = inp.xkb_layout_names.count lang := by
  constructor
  · exact on_focus_default_commands st inputs fails k st' tr lang h hk hl
  · intro inp _
    have hlen := enumFrom_filterMap_length lang
        (fun i => cmdText inp.identifier (Int.ofNat i)) inp.xkb_layout_names 0
    simpa [List.enum] using hlen

/-- Claim C3 (witness): the amended theorem on keyboard D (unique match at
index 1, one command) and keyboard E (no match, no command). -/
theorem default_pass_commands_inst :
    commandsOf trDef = inputsDE.flatMap (fun inp => inp.xkb_layout_names.enum.filterMap
        (fun q => if q.2 = "us" then some (cmdText inp.identifier (Int.ofNat q.1)) else none))
    ∧ (kbD.xkb_layout_names.enum.filterMap
        (fun q => if q.2 = "us" then some (cmdText kbD.identifier (Int.ofNat q.1)) else none)).length
        = kbD.xkb_layout_names.count "us" :=
  have h := default_pass_commands stDef inputsDE noFail "C" stDef' trDef "us"
      (by decide) (by decide) (by decide)
  ⟨h.1, h.2 kbD (by decide)⟩

/-- Claim C7: the snapshot fails hard (modelled as none, for the panic of
the source) exactly when some keyboard-type device lacks an active layout
index; on success the returned map holds an entry exactly for the
identifiers of the keyboard-type devices (and only those), and every
recorded value is the reported active layout index of a keyboard-type
device with that identifier. -/
theorem snapshot_keyboards_exact (inputs : List Input) :
    (_get_lang inputs = none
      ↔ ∃ i ∈ inputs, i.input_type = "keyboard" ∧ i.xkb_active_layout_index = none)
    ∧ ∀ m, _get_lang inputs = some m →
        (∀ d, (alget m d).isSome = true
            ↔ ∃ i ∈ inputs, i.input_type = "keyboard" ∧ i.identifier = d)
        ∧ (∀ d v, alget m d = some v →
            ∃ i ∈ inputs, i.input_type = "keyboard" ∧ i.identifier = d
              ∧ i.xkb_active_layout_index = some v) := by
  refine ⟨getLangGo_none_iff inputs [], fun m hm => ⟨fun d => ?_, fun d v hv => ?_⟩⟩
  · have hiff := getLangGo_isSome inputs [] m d hm
    simpa using hiff
  · rcases getLangGo_sound inputs [] m d v hm hv with h1 | h2
    · simp at h1
    · exact h2

/-- Claim C7 (witness): a keyboard without an index makes the snapshot fail,
while a keyboard at index 3 next to an index-less pointer device yields a
map with an entry for the keyboard. -/
theorem snapshot_keyboards_exact_inst :
    _get_lang inputsBad = none ∧ (alget [("D", (3 : Int))] "D").isSome = true :=
  ⟨(snapshot_keyboards_exact inputsBad).1.mpr (by decide),
   (((snapshot_keyboards_exact inputsGood).2 [("D", 3)] (by decide)).1 "D").mpr (by decide)⟩
